import Mathlib

set_option maxHeartbeats 1000000

/- Verification development for the tic-tac-toe engine (tictactoe.py):
   a 3x3 board with mutable do/undo move application, a terminal-state
   evaluator, and a generic minimax search with alpha-beta pruning and a
   process-wide transposition table.  The Python board mutates in place;
   here every mutation is modelled by explicit state passing: `do_move`
   returns the new board, `undo_move` returns `none` where Python's
   `list.pop()` on an empty history raises `IndexError`, and the global
   `TRANSPOSITION_TABLE` dictionary is threaded through `minmax` as an
   association list. -/

/-- The two marks; `board.turn` is always one of `"x"`, `"o"`. -/
inductive Player
  | x
  | o
deriving DecidableEq, Repr

/-- One square of the 3x3 grid: `" "` is `none`, a mark is `some`. -/
abbrev Cell := Option Player

/-- A move is an `(r, c)` pair of indices into the 3x3 grid. -/
abbrev Move := Fin 3 × Fin 3

/-- The nine squares in row-major order, the order in which `np.where`
enumerates indices of a 3x3 array. -/
def allSquares : List Move :=
  (List.finRange 3).flatMap fun r => (List.finRange 3).map fun c => (r, c)

/-- The board object `TicTacToeBoard`: the 3x3 grid of chars, the `past_moves` undo stack
(Python appends to the end of a list and pops the last element; here the
head of the list is the top of the stack), and the side to move. -/
structure TicTacToeBoard where
  board : Move → Cell
  past_moves : List Move
  turn : Player

/-- Board equality is decidable by comparing the nine squares and the two
remaining fields. -/
instance : DecidableEq TicTacToeBoard := fun a b =>
  decidable_of_iff
    ((∀ p ∈ allSquares, a.board p = b.board p) ∧ a.past_moves = b.past_moves ∧ a.turn = b.turn)
    (by
      obtain ⟨g1, pm1, t1⟩ := a
      obtain ⟨g2, pm2, t2⟩ := b
      simp only [TicTacToeBoard.mk.injEq]
      constructor
      · rintro ⟨h1, h2, h3⟩
        refine ⟨funext fun p => h1 p ?_, h2, h3⟩
        revert p
        decide
      · rintro ⟨h1, h2, h3⟩
        subst h1
        exact ⟨fun p _ => rfl, h2, h3⟩)

/-- Constructor `__init__(turn="x")`: 3x3 array full of `" "`, empty history. -/
def TicTacToeBoard.init (turn : Player) : TicTacToeBoard :=
  { board := fun _ => none, past_moves := [], turn := turn }

/-- Point update of the grid, `board[move] = value`. -/
def setCell (g : Move → Cell) (p : Move) (v : Cell) : Move → Cell :=
  fun q => if q = p then v else g q

/-- Method `moves()`: the empty squares as `(r, c)` tuples, in `np.where`
row-major order.  (Same result no matter whose turn it is.) -/
def TicTacToeBoard.moves (b : TicTacToeBoard) : List Move :=
  allSquares.filter fun p => decide (b.board p = none)

/-- Method `next_turn()`: whichever of `"x"`, `"o"` is not the current turn. -/
def TicTacToeBoard.next_turn (b : TicTacToeBoard) : Player :=
  if b.turn = Player.x then Player.o else Player.x

/-- Method `do_move(move)`: writes the current turn's mark at `move`, flips the
turn, and pushes `move` on the history stack.  No validation is performed:
an occupied square is silently overwritten. -/
def TicTacToeBoard.do_move (b : TicTacToeBoard) (m : Move) : TicTacToeBoard :=
  { board := setCell b.board m (some b.turn)
    turn := b.next_turn
    past_moves := m :: b.past_moves }

/-- Method `undo_move()`: pops the last move off the stack, clears that square to
`" "`, and flips the turn.  `past_moves.pop()` on an empty history raises
`IndexError` before any mutation happens, modelled as `none`. -/
def TicTacToeBoard.undo_move (b : TicTacToeBoard) : Option TicTacToeBoard :=
  match b.past_moves with
  | [] => none
  | last :: rest =>
    some { board := setCell b.board last none
           turn := b.next_turn
           past_moves := rest }

/-- Constant `WIN_SCORE = 1000`. -/
def WIN_SCORE : Int := 1000

/-- Reversed column index, as in the anti-diagonal `np.diag(mask[:, ::-1])`. -/
def flipc : Fin 3 → Fin 3
  | 0 => 2
  | 1 => 1
  | 2 => 0

/-- The win test of `eval_tictactoe` for one team: with
`mask = board.board == team`, `mask.all(0).any()` is a full column,
`mask.all(1).any()` a full row, `np.diag(mask).all()` the main diagonal
and `np.diag(mask[:, ::-1]).all()` the anti-diagonal. -/
def wins (b : TicTacToeBoard) (team : Player) : Bool :=
  ((List.finRange 3).any fun c => (List.finRange 3).all fun r => decide (b.board (r, c) = some team))
  || ((List.finRange 3).any fun r => (List.finRange 3).all fun c => decide (b.board (r, c) = some team))
  || ((List.finRange 3).all fun i => decide (b.board (i, i) = some team))
  || ((List.finRange 3).all fun i => decide (b.board (i, flipc i) = some team))

/-- Count `np.sum(board.board == " ")`: how many squares are empty. -/
def open_positions (b : TicTacToeBoard) : Nat :=
  (allSquares.filter fun p => decide (b.board p = none)).length

/-- Function `eval_tictactoe(board) -> (score, game_over)`: the teams are checked
in the order `[("x", 1), ("o", -1)]`; a win returns
`team_direction * WIN_SCORE` with `game_over = True`; otherwise the score
is `0` and the game is over exactly when no square is empty. -/
def eval_tictactoe (b : TicTacToeBoard) : Int × Bool :=
  if wins b Player.x then (WIN_SCORE, true)
  else if wins b Player.o then (-WIN_SCORE, true)
  else (0, open_positions b == 0)

/-- Spec wording of a completed line: the team occupies a full row, a full
column, or one of the two diagonals. -/
def has_line (b : TicTacToeBoard) (team : Player) : Prop :=
  (∃ r : Fin 3, ∀ c : Fin 3, b.board (r, c) = some team)
  ∨ (∃ c : Fin 3, ∀ r : Fin 3, b.board (r, c) = some team)
  ∨ (∀ i : Fin 3, b.board (i, i) = some team)
  ∨ (∀ i : Fin 3, b.board (i, flipc i) = some team)

/-- Scores handled by the search: an integer evaluation, or the two
infinities `-np.inf` / `np.inf` used for `alpha`, `beta` and the initial
`best_score`. -/
inductive XInt
  | ninf
  | mk (z : Int)
  | pinf
deriving DecidableEq, Repr

/-- Comparison on scores, matching float comparison with infinities. -/
def XInt.le : XInt → XInt → Bool
  | .ninf, _ => true
  | _, .pinf => true
  | .mk a, .mk b => decide (a ≤ b)
  | .pinf, _ => false
  | .mk _, .ninf => false

/-- Strict comparison on scores. -/
def XInt.lt (a b : XInt) : Bool := !(XInt.le b a)

def XInt.maxx (a b : XInt) : XInt := if XInt.le a b then b else a

def XInt.minn (a b : XInt) : XInt := if XInt.le a b then a else b

def XInt.neg : XInt → XInt
  | .ninf => .pinf
  | .mk z => .mk (-z)
  | .pinf => .ninf

/-- Multiplication by `direction`, which is always `1.0` or `-1.0`. -/
def XInt.mulSign (dir : Int) (a : XInt) : XInt :=
  if 0 < dir then a else a.neg

/-- A transposition-table key: `"".join(board.board.flatten()) + str(depth)`.
The joined flattened grid is nine characters followed by the decimal depth,
so the string determines (and is determined by) the pair of the flattened
grid and the depth. -/
abbrev TTKey := List Cell × Nat

/-- Serialization `board.board.flatten()`: the grid contents in row-major order. -/
def serialize_board (b : TicTacToeBoard) : List Cell := allSquares.map b.board

/-- The key under which a score is cached: serialized grid plus remaining
depth, and nothing else (in particular not `turn` and not the history). -/
def ttkey (b : TicTacToeBoard) (depth : Nat) : TTKey := (serialize_board b, depth)

/-- The global `TRANSPOSITION_TABLE`: a dict from key to score, modelled as an
association list; entries are only ever added under keys not yet present. -/
abbrev TTTable := List (TTKey × XInt)

def tt_lookup : TTTable → TTKey → Option XInt
  | [], _ => none
  | (k, v) :: rest, key => if k = key then some v else tt_lookup rest key

def tt_insert (tt : TTTable) (k : TTKey) (v : XInt) : TTTable := (k, v) :: tt

/-- Every cached value is a finite score (true of everything `minmax`
itself ever stores). -/
def TTGood (tt : TTTable) : Prop := ∀ kv ∈ tt, ∃ z : Int, kv.2 = XInt.mk z

/-- The move-ordering key `score_move_heuristic(move)`: `do_move`; `eval_fn`; `undo_move` — a
pure read in the end, whose value is the evaluation right after the move. -/
def score_move_heuristic (b : TicTacToeBoard) (m : Move) : Int :=
  (eval_tictactoe (b.do_move m)).1

/-- One step of a stable ascending insertion by key: a later element goes
after every already-placed element whose key is `≤` its own, which is the
order `list.sort(key=...)` (a stable ascending sort) produces. -/
def insort (key : Move → Int) (m : Move) : List Move → List Move
  | [] => [m]
  | a :: rest => if key a ≤ key m then a :: insort key m rest else m :: a :: rest

/-- The source sort `all_moves.sort(key=score_move_heuristic, reverse=(board.turn == "white"))`:
`board.turn` is `"x"` or `"o"` here, never `"white"` (the source marks this
with `TODO: fix white / x`), so `reverse` is always `False` and this is a
stable ascending sort by the one-ply heuristic for both sides. -/
def sorted_moves (b : TicTacToeBoard) : List Move :=
  (b.moves).foldl (fun acc m => insort (score_move_heuristic b) m acc) []

/-- The sign `direction`: `1.0 if board.turn in ["x", "white"] else -1.0`; the turn
here is `"x"` or `"o"`. -/
def direction (b : TicTacToeBoard) : Int :=
  if b.turn = Player.x then 1 else -1

/-- What one `minmax` call produces: the returned `(score, move)` pair,
plus the final states of the two pieces of mutable state it touches — the
global transposition table and the board itself. -/
structure MMResult where
  score : XInt
  move : Option Move
  table : TTTable
  bd : TicTacToeBoard
deriving DecidableEq

/-- The accumulator updates at the bottom of the `for move in all_moves`
loop body. -/
structure ABStep where
  alpha : XInt
  beta : XInt
  best : XInt
  bm : Option Move
  cut : Bool
deriving DecidableEq

/-- The loop-body bookkeeping after `score` is known: record a new best
if `score * direction > best_score * direction`, then raise `alpha`
(maximizer) or lower `beta` (minimizer) with `score`, and cut off when
`beta <= alpha`. -/
def ab_update (dir : Int) (alpha beta best : XInt) (bm : Option Move) (m : Move)
    (score : XInt) : ABStep :=
  { best := if XInt.lt (XInt.mulSign dir best) (XInt.mulSign dir score) then score else best
    bm := if XInt.lt (XInt.mulSign dir best) (XInt.mulSign dir score) then some m else bm
    alpha := if 0 < dir then XInt.maxx alpha score else alpha
    beta := if 0 < dir then beta else XInt.minn beta score
    cut := XInt.le (if 0 < dir then beta else XInt.minn beta score)
      (if 0 < dir then XInt.maxx alpha score else alpha) }

/-- What one child produces after `board.do_move(move)`: on a cache hit the
cached score with table and board untouched, on a miss the recursive
result, stored into the table under the child's key. -/
structure ChildRes where
  score : XInt
  table : TTTable
  bd : TicTacToeBoard
deriving DecidableEq

def child_score (f : TicTacToeBoard → XInt → XInt → TTTable → MMResult)
    (dm1 : Nat) (b1 : TicTacToeBoard) (alpha beta : XInt) (tt : TTTable) : ChildRes :=
  match tt_lookup tt (ttkey b1 dm1) with
  | some s => ⟨s, tt, b1⟩
  | none =>
    ⟨(f b1 alpha beta tt).score,
     tt_insert (f b1 alpha beta tt).table (ttkey b1 dm1) (f b1 alpha beta tt).score,
     (f b1 alpha beta tt).bd⟩

/-- Runs `board.undo_move()` at a call site where the history is known to be
nonempty (it always is right after a `do_move`); on an empty history
Python would raise out of the search. -/
def undoD (b : TicTacToeBoard) : TicTacToeBoard :=
  match b.undo_move with
  | some b2 => b2
  | none => b

/-- The `for move in all_moves` search loop of `minmax`, for `max_depth >= 2`:
`f` is `minmax` at depth `max_depth - 1 = dm1`, already given the current
`alpha`/`beta` at each call as in the source; the board is threaded through
`do_move`/recursion/`undo_move` exactly as the single mutable instance is. -/
def minmax_loop (f : TicTacToeBoard → XInt → XInt → TTTable → MMResult)
    (dm1 : Nat) (dir : Int) :
    TicTacToeBoard → List Move → XInt → XInt → XInt → Option Move → TTTable → MMResult
  | b, [], _, _, best, bm, tt => ⟨best, bm, tt, b⟩
  | b, m :: rest, alpha, beta, best, bm, tt =>
    if (ab_update dir alpha beta best bm m
        (child_score f dm1 (b.do_move m) alpha beta tt).score).cut then
      ⟨(ab_update dir alpha beta best bm m
          (child_score f dm1 (b.do_move m) alpha beta tt).score).best,
       (ab_update dir alpha beta best bm m
          (child_score f dm1 (b.do_move m) alpha beta tt).score).bm,
       (child_score f dm1 (b.do_move m) alpha beta tt).table,
       undoD (child_score f dm1 (b.do_move m) alpha beta tt).bd⟩
    else
      minmax_loop f dm1 dir (undoD (child_score f dm1 (b.do_move m) alpha beta tt).bd) rest
        (ab_update dir alpha beta best bm m
          (child_score f dm1 (b.do_move m) alpha beta tt).score).alpha
        (ab_update dir alpha beta best bm m
          (child_score f dm1 (b.do_move m) alpha beta tt).score).beta
        (ab_update dir alpha beta best bm m
          (child_score f dm1 (b.do_move m) alpha beta tt).score).best
        (ab_update dir alpha beta best bm m
          (child_score f dm1 (b.do_move m) alpha beta tt).score).bm
        (child_score f dm1 (b.do_move m) alpha beta tt).table

/-- The search `minmax(board, eval_fn, max_depth, alpha=-np.inf, beta=np.inf)` for
`eval_fn = eval_tictactoe`.  Base case: evaluate; if done or `max_depth == 0`
return `(score, None)`.  Otherwise sort the moves by the one-ply heuristic;
at `max_depth == 1` reuse the first sorted candidate's heuristic as its
score (`do_move`; `eval_fn`; `undo_move`); otherwise run the alpha-beta
loop with the transposition table, starting from
`best_score = -np.inf * direction` and `best_move = None`.  (At depth
`>= 1` a non-terminal position always has a move, so the `[]` arm of the
shortcut, where Python's `all_moves[0]` would raise, is unreachable.) -/
def minmax : Nat → TicTacToeBoard → XInt → XInt → TTTable → MMResult
  | 0, b, _, _, tt => ⟨XInt.mk (eval_tictactoe b).1, none, tt, b⟩
  | d + 1, b, alpha, beta, tt =>
    if (eval_tictactoe b).2 then ⟨XInt.mk (eval_tictactoe b).1, none, tt, b⟩
    else
      match d with
      | 0 =>
        match sorted_moves b with
        | [] => ⟨XInt.mk (eval_tictactoe b).1, none, tt, b⟩
        | m :: _ =>
          ⟨XInt.mk (eval_tictactoe (b.do_move m)).1, some m, tt, undoD (b.do_move m)⟩
      | _ + 1 =>
        minmax_loop (minmax d) d (direction b) b (sorted_moves b) alpha beta
          (XInt.mulSign (direction b) XInt.ninf) none tt

/-- Modelled from the spec: plain unpruned, uncached minimax at a given
depth — evaluate at terminal positions or depth 0, otherwise the maximum
(for `"x"` to move) or minimum (for `"o"` to move) of the children's
values one depth lower.  This is the reference point for the
functional-equivalence property of alpha-beta pruning. -/
def specMinimax : Nat → TicTacToeBoard → XInt
  | 0, b => XInt.mk (eval_tictactoe b).1
  | d + 1, b =>
    if (eval_tictactoe b).2 then XInt.mk (eval_tictactoe b).1
    else
      if b.turn = Player.x then
        ((b.moves).map fun m => specMinimax d (b.do_move m)).foldl XInt.maxx XInt.ninf
      else
        ((b.moves).map fun m => specMinimax d (b.do_move m)).foldl XInt.minn XInt.pinf

/-- The body of `iterative_deepening`: run the remaining depths in order,
carrying `(score, move)` from the most recently completed depth and the
table state; `timeout d` abstracts the wall-clock check
`time.time() - t0 > max_t` made at the start of the iteration for depth
`d`, and a `True` check breaks out of the loop. -/
def id_go (timeout : Nat → Bool) (b : TicTacToeBoard) :
    List Nat → Option XInt → Option Move → TTTable → Option XInt × Option Move × TTTable
  | [], score, move, tt => (score, move, tt)
  | d :: rest, score, move, tt =>
    if timeout d then (score, move, tt)
    else
      id_go timeout b rest (some (minmax d b XInt.ninf XInt.pinf tt).score)
        (minmax d b XInt.ninf XInt.pinf tt).move
        (minmax d b XInt.ninf XInt.pinf tt).table

/-- The driver `iterative_deepening(board, eval_fn, max_depth, max_t)`: calls `minmax`
for `depth in range(max_depth + 1)` starting from `score, move = None, None`,
breaking once the elapsed time exceeds the budget. -/
def iterative_deepening (timeout : Nat → Bool) (b : TicTacToeBoard) (max_depth : Nat)
    (tt : TTTable) : Option XInt × Option Move × TTTable :=
  id_go timeout b (List.range (max_depth + 1)) none none tt

/-- The table state `iterative_deepening` has accumulated when its last
iteration (depth `max_depth`) starts, assuming no earlier timeout. -/
def id_table_before (timeout : Nat → Bool) (b : TicTacToeBoard) (max_depth : Nat)
    (tt : TTTable) : TTTable :=
  match max_depth with
  | 0 => tt
  | d + 1 => (iterative_deepening timeout b d tt).2.2

/-- A call through the board's public mutating interface: `do_move(m)` or
`undo_move()`. -/
inductive BoardOp
  | doM (m : Move)
  | undoM
deriving DecidableEq, Repr

/-- Run a sequence of `do_move`/`undo_move` calls; `none` as soon as an
`undo_move` hits an empty history. -/
def apply_ops : TicTacToeBoard → List BoardOp → Option TicTacToeBoard
  | b, [] => some b
  | b, BoardOp.doM m :: rest => apply_ops (b.do_move m) rest
  | b, BoardOp.undoM :: rest =>
    match b.undo_move with
    | none => none
    | some b2 => apply_ops b2 rest

/-- How many `do_move` calls a sequence contains. -/
def countDo (ops : List BoardOp) : Nat :=
  ops.countP fun op => match op with | BoardOp.doM _ => true | BoardOp.undoM => false

/-- How many `undo_move` calls a sequence contains. -/
def countUndo (ops : List BoardOp) : Nat :=
  ops.countP fun op => match op with | BoardOp.doM _ => false | BoardOp.undoM => true

/-- The position `x x .` / `o o .` / `. . .` with `"x"` to move, reached
through four `do_move` calls. -/
def bX : TicTacToeBoard :=
  ((((TicTacToeBoard.init Player.x).do_move (0, 0)).do_move (1, 0)).do_move
    (0, 1)).do_move (1, 1)

/-- The position `x x x` / `o o o` / `. . .` in which both sides have a
completed row, reached through six `do_move` calls (the game is simply
played past `"x"`'s win, which `do_move` never checks for). -/
def bBoth : TicTacToeBoard :=
  ((((((TicTacToeBoard.init Player.x).do_move (0, 0)).do_move (1, 0)).do_move
    (0, 1)).do_move (1, 1)).do_move (0, 2)).do_move (1, 2)

/-- A board whose square `(0, 0)` is already occupied (by `"x"`). -/
def bOcc : TicTacToeBoard := (TicTacToeBoard.init Player.x).do_move (0, 0)

/-- The position `o o o` / `x x .` / `. . .`: a win for `"o"` with no
completed `"x"` line. -/
def bO : TicTacToeBoard :=
  (((((TicTacToeBoard.init Player.o).do_move (0, 0)).do_move (1, 0)).do_move
    (0, 1)).do_move (1, 1)).do_move (0, 2)

instance (b : TicTacToeBoard) (team : Player) : Decidable (has_line b team) := by
  unfold has_line
  infer_instance

/-- A time oracle that never reports the budget as exceeded. -/
def tmoNever : Nat → Bool := fun _ => false

/-- A time oracle reporting the budget as exceeded from the second
iteration (depth 1) on. -/
def tmoAt1 : Nat → Bool := fun d => decide (1 ≤ d)

/-- A time oracle reporting the budget as exceeded immediately, before the
depth-0 iteration runs. -/
def tmoAt0 : Nat → Bool := fun _ => true

/- ------------------------------------------------------------------ -/
/- Lemmas                                                              -/
/- ------------------------------------------------------------------ -/

theorem open_positions_eq_moves_length (b : TicTacToeBoard) :
    open_positions b = b.moves.length := rfl

theorem mem_moves_board_none {b : TicTacToeBoard} {m : Move} (h : m ∈ b.moves) :
    b.board m = none :=
  of_decide_eq_true (List.mem_filter.mp h).2

theorem nonterminal_moves_ne_nil {b : TicTacToeBoard}
    (h : (eval_tictactoe b).2 = false) : b.moves ≠ [] := by
  intro hnil
  by_cases h1 : wins b Player.x
  · simp [eval_tictactoe, h1] at h
  · by_cases h2 : wins b Player.o
    · simp [eval_tictactoe, h1, h2] at h
    · simp [eval_tictactoe, h1, h2] at h
      have : open_positions b = 0 := by
        rw [open_positions_eq_moves_length, hnil]
        rfl
      exact h this

theorem do_undo {b : TicTacToeBoard} {m : Move} (h : b.board m = none) :
    (b.do_move m).undo_move = some b := by
  obtain ⟨g, pm, t⟩ := b
  simp only [TicTacToeBoard.do_move, TicTacToeBoard.undo_move, TicTacToeBoard.next_turn,
    Option.some.injEq, TicTacToeBoard.mk.injEq]
  refine ⟨?_, trivial, ?_⟩
  · funext q
    by_cases hq : q = m
    · subst hq
      simpa [setCell] using h.symm
    · simp [setCell, hq]
  · cases t <;> rfl

theorem undoD_do {b : TicTacToeBoard} {m : Move} (h : b.board m = none) :
    undoD (b.do_move m) = b := by
  simp [undoD, do_undo h]

theorem mem_insort {key : Move → Int} {m a : Move} : ∀ {l : List Move},
    a ∈ insort key m l ↔ a = m ∨ a ∈ l := by
  intro l
  induction l with
  | nil => simp [insort]
  | cons x rest ih =>
    simp only [insort]
    split <;> (simp [ih]; try tauto)

theorem mem_sort_foldl (key : Move → Int) {a : Move} : ∀ (l acc : List Move),
    (a ∈ l.foldl (fun acc m => insort key m acc) acc ↔ a ∈ acc ∨ a ∈ l) := by
  intro l
  induction l with
  | nil => simp
  | cons x rest ih =>
    intro acc
    simp only [List.foldl_cons]
    rw [ih]
    simp only [mem_insort, List.mem_cons]
    tauto

theorem mem_sorted_moves {b : TicTacToeBoard} {m : Move} (h : m ∈ sorted_moves b) :
    m ∈ b.moves := by
  have := (mem_sort_foldl (score_move_heuristic b) b.moves []).mp h
  simpa using this

theorem sorted_moves_ne_nil {b : TicTacToeBoard} (h : b.moves ≠ []) :
    sorted_moves b ≠ [] := by
  obtain ⟨m, hm⟩ := List.exists_mem_of_ne_nil _ h
  exact List.ne_nil_of_mem
    ((mem_sort_foldl (score_move_heuristic b) b.moves []).mpr (Or.inr hm))

theorem TTGood_nil : TTGood [] := by
  intro kv h
  cases h

theorem tt_lookup_good : ∀ {tt : TTTable}, TTGood tt → ∀ {k : TTKey} {s : XInt},
    tt_lookup tt k = some s → ∃ z : Int, s = XInt.mk z := by
  intro tt
  induction tt with
  | nil => intro _ k s h; simp [tt_lookup] at h
  | cons kv rest ih =>
    intro htt k s h
    obtain ⟨k0, v0⟩ := kv
    simp only [tt_lookup] at h
    split at h
    · obtain ⟨z, hz⟩ := htt (k0, v0) (List.mem_cons_self _ _)
      injection h with h2
      exact ⟨z, by rw [← h2]; exact hz⟩
    · exact ih (fun kv hkv => htt kv (List.mem_cons_of_mem _ hkv)) h

theorem TTGood_insert {tt : TTTable} {k : TTKey} {v : XInt}
    (hv : ∃ z : Int, v = XInt.mk z) (htt : TTGood tt) : TTGood (tt_insert tt k v) := by
  intro kv hkv
  rcases List.mem_cons.mp hkv with h | h
  · subst h
    exact hv
  · exact htt kv h

theorem mulSign_mk (dir z : Int) : ∃ w : Int, XInt.mulSign dir (XInt.mk z) = XInt.mk w := by
  unfold XInt.mulSign
  split
  · exact ⟨z, rfl⟩
  · exact ⟨-z, rfl⟩

theorem lt_ninf_mk (w : Int) : XInt.lt XInt.ninf (XInt.mk w) = true := rfl

theorem mulSign_direction_ninf (b : TicTacToeBoard) :
    XInt.mulSign (direction b) (XInt.mulSign (direction b) XInt.ninf) = XInt.ninf := by
  unfold direction
  split <;> rfl

theorem ab_update_bm_ne_none (dir : Int) (alpha beta best : XInt) (bm : Option Move)
    (m : Move) (score : XInt) (h : bm ≠ none) :
    (ab_update dir alpha beta best bm m score).bm ≠ none := by
  unfold ab_update
  dsimp only
  split
  · simp
  · exact h

theorem ab_update_cases (dir : Int) (alpha beta best : XInt) (bm : Option Move)
    (m : Move) (score : XInt) :
    ((ab_update dir alpha beta best bm m score).best = score ∧
      (ab_update dir alpha beta best bm m score).bm = some m)
    ∨ ((ab_update dir alpha beta best bm m score).best = best ∧
      (ab_update dir alpha beta best bm m score).bm = bm) := by
  unfold ab_update
  dsimp only
  split
  · exact Or.inl ⟨rfl, rfl⟩
  · exact Or.inr ⟨rfl, rfl⟩

theorem ab_update_first (dir : Int) (alpha beta best : XInt) (bm : Option Move)
    (m : Move) (z : Int) (hbest : XInt.mulSign dir best = XInt.ninf) :
    (ab_update dir alpha beta best bm m (XInt.mk z)).best = XInt.mk z ∧
    (ab_update dir alpha beta best bm m (XInt.mk z)).bm = some m := by
  unfold ab_update
  dsimp only
  obtain ⟨w, hw⟩ := mulSign_mk dir z
  rw [hbest, hw]
  simp [lt_ninf_mk]

theorem child_score_bd {f : TicTacToeBoard → XInt → XInt → TTTable → MMResult}
    {dm1 : Nat} {b1 : TicTacToeBoard} {alpha beta : XInt} {tt : TTTable}
    (hf : (f b1 alpha beta tt).bd = b1) :
    (child_score f dm1 b1 alpha beta tt).bd = b1 := by
  unfold child_score
  split
  · rfl
  · exact hf

theorem child_score_good {f : TicTacToeBoard → XInt → XInt → TTTable → MMResult}
    {dm1 : Nat} {b1 : TicTacToeBoard} {alpha beta : XInt} {tt : TTTable}
    (htt : TTGood tt)
    (hf : TTGood tt →
      (∃ z : Int, (f b1 alpha beta tt).score = XInt.mk z) ∧ TTGood (f b1 alpha beta tt).table) :
    (∃ z : Int, (child_score f dm1 b1 alpha beta tt).score = XInt.mk z) ∧
    TTGood (child_score f dm1 b1 alpha beta tt).table := by
  unfold child_score
  split
  · next s hs => exact ⟨tt_lookup_good htt hs, htt⟩
  · obtain ⟨hsc, htb⟩ := hf htt
    exact ⟨hsc, TTGood_insert hsc htb⟩

theorem minmax_loop_bd (f : TicTacToeBoard → XInt → XInt → TTTable → MMResult)
    (dm1 : Nat) (dir : Int)
    (hf : ∀ b alpha beta tt, (f b alpha beta tt).bd = b) :
    ∀ (l : List Move) (b : TicTacToeBoard) (alpha beta best : XInt) (bm : Option Move)
      (tt : TTTable), (∀ m ∈ l, b.board m = none) →
      (minmax_loop f dm1 dir b l alpha beta best bm tt).bd = b := by
  intro l
  induction l with
  | nil => intro b alpha beta best bm tt _; rfl
  | cons m rest ih =>
    intro b alpha beta best bm tt h
    have hm : b.board m = none := h m (List.mem_cons_self m rest)
    have hub : undoD (child_score f dm1 (b.do_move m) alpha beta tt).bd = b := by
      rw [child_score_bd (hf _ alpha beta tt)]
      exact undoD_do hm
    simp only [minmax_loop]
    split
    · exact hub
    · rw [hub]
      exact ih b _ _ _ _ _ (fun m2 hm2 => h m2 (List.mem_cons_of_mem _ hm2))

theorem minmax_bd : ∀ (d : Nat) (b : TicTacToeBoard) (alpha beta : XInt) (tt : TTTable),
    (minmax d b alpha beta tt).bd = b := by
  intro d
  induction d with
  | zero => intro b alpha beta tt; rfl
  | succ n ih =>
    intro b alpha beta tt
    by_cases hdone : (eval_tictactoe b).2
    · simp [minmax, hdone]
    · simp only [Bool.not_eq_true] at hdone
      cases n with
      | zero =>
        simp only [minmax, hdone, Bool.false_eq_true, if_false]
        cases hs : sorted_moves b with
        | nil => rfl
        | cons m rest =>
          have hm : b.board m = none :=
            mem_moves_board_none (mem_sorted_moves (hs ▸ List.mem_cons_self m rest))
          exact undoD_do hm
      | succ n2 =>
        simp only [minmax, hdone, Bool.false_eq_true, if_false]
        exact minmax_loop_bd _ _ _ (fun b2 a2 c2 t2 => ih b2 a2 c2 t2) _ b _ _ _ _ _
          (fun m hm => mem_moves_board_none (mem_sorted_moves hm))

theorem minmax_loop_master (f : TicTacToeBoard → XInt → XInt → TTTable → MMResult)
    (dm1 : Nat) (dir : Int)
    (hf : ∀ b alpha beta tt, TTGood tt →
      (∃ z : Int, (f b alpha beta tt).score = XInt.mk z) ∧ TTGood (f b alpha beta tt).table) :
    ∀ (l : List Move) (b : TicTacToeBoard) (alpha beta best : XInt) (bm : Option Move)
      (tt : TTTable), TTGood tt →
      TTGood (minmax_loop f dm1 dir b l alpha beta best bm tt).table
      ∧ ((∃ z : Int, best = XInt.mk z) →
          ∃ z : Int, (minmax_loop f dm1 dir b l alpha beta best bm tt).score = XInt.mk z)
      ∧ (bm ≠ none → (minmax_loop f dm1 dir b l alpha beta best bm tt).move ≠ none)
      ∧ (XInt.mulSign dir best = XInt.ninf → l ≠ [] →
          (∃ z : Int, (minmax_loop f dm1 dir b l alpha beta best bm tt).score = XInt.mk z)
          ∧ (minmax_loop f dm1 dir b l alpha beta best bm tt).move ≠ none) := by
  intro l
  induction l with
  | nil =>
    intro b alpha beta best bm tt htt
    exact ⟨htt, fun h => h, fun h => h, fun _ hnil => absurd rfl hnil⟩
  | cons m rest ih =>
    intro b alpha beta best bm tt htt
    obtain ⟨⟨z, hz⟩, htb⟩ := child_score_good htt (hf (b.do_move m) alpha beta tt)
    simp only [minmax_loop]
    split
    · refine ⟨htb, ?_, ?_, ?_⟩
      · intro hbest
        rcases ab_update_cases dir alpha beta best bm m
            (child_score f dm1 (b.do_move m) alpha beta tt).score with h | h
        · exact ⟨z, by rw [h.1]; exact hz⟩
        · rw [h.1]; exact hbest
      · intro hbm
        exact ab_update_bm_ne_none dir alpha beta best bm m
          (child_score f dm1 (b.do_move m) alpha beta tt).score hbm
      · intro hbest _
        have hfirst := ab_update_first dir alpha beta best bm m z hbest
        rw [hz]
        rw [hz] at *
        exact ⟨⟨z, hfirst.1⟩, by rw [hfirst.2]; simp⟩
    · refine ⟨(ih _ _ _ _ _ _ htb).1, ?_, ?_, ?_⟩
      · intro hbest
        refine (ih _ _ _ _ _ _ htb).2.1 ?_
        rcases ab_update_cases dir alpha beta best bm m
            (child_score f dm1 (b.do_move m) alpha beta tt).score with h | h
        · exact ⟨z, by rw [h.1]; exact hz⟩
        · rw [h.1]; exact hbest
      · intro hbm
        exact (ih _ _ _ _ _ _ htb).2.2.1 (ab_update_bm_ne_none dir alpha beta best bm m
          (child_score f dm1 (b.do_move m) alpha beta tt).score hbm)
      · intro hbest _
        have hfirst := ab_update_first dir alpha beta best bm m z hbest
        rw [hz] at *
        constructor
        · exact (ih _ _ _ _ _ _ htb).2.1 ⟨z, hfirst.1⟩
        · refine (ih _ _ _ _ _ _ htb).2.2.1 ?_
          rw [hfirst.2]
          simp

theorem minmax_good : ∀ (d : Nat) (b : TicTacToeBoard) (alpha beta : XInt) (tt : TTTable),
    TTGood tt →
    (∃ z : Int, (minmax d b alpha beta tt).score = XInt.mk z)
    ∧ TTGood (minmax d b alpha beta tt).table
    ∧ ((eval_tictactoe b).2 = false → d ≠ 0 → (minmax d b alpha beta tt).move ≠ none) := by
  intro d
  induction d with
  | zero =>
    intro b alpha beta tt htt
    exact ⟨⟨(eval_tictactoe b).1, rfl⟩, htt, fun _ h0 => absurd rfl h0⟩
  | succ n ih =>
    intro b alpha beta tt htt
    by_cases hdone : (eval_tictactoe b).2
    · simp only [minmax, hdone, if_true]
      exact ⟨⟨(eval_tictactoe b).1, rfl⟩, htt, fun hnd _ => Bool.noConfusion hnd⟩
    · simp only [Bool.not_eq_true] at hdone
      have hmne : sorted_moves b ≠ [] := sorted_moves_ne_nil (nonterminal_moves_ne_nil hdone)
      cases n with
      | zero =>
        simp only [minmax, hdone, Bool.false_eq_true, if_false]
        cases hs : sorted_moves b with
        | nil => exact absurd hs hmne
        | cons m rest =>
          exact ⟨⟨(eval_tictactoe (b.do_move m)).1, rfl⟩, htt, fun _ _ => by simp⟩
      | succ n2 =>
        simp only [minmax, hdone, Bool.false_eq_true, if_false]
        have hmaster := minmax_loop_master (minmax (n2 + 1)) (n2 + 1) (direction b)
          (fun b2 a2 c2 t2 h2 => ⟨(ih b2 a2 c2 t2 h2).1, (ih b2 a2 c2 t2 h2).2.1⟩)
          (sorted_moves b) b alpha beta (XInt.mulSign (direction b) XInt.ninf) none tt htt
        have hlast := hmaster.2.2.2 (mulSign_direction_ninf b) hmne
        exact ⟨hlast.1, hmaster.1, fun _ _ => hlast.2⟩

theorem wins_iff_has_line (b : TicTacToeBoard) (team : Player) :
    wins b team = true ↔ has_line b team := by
  unfold wins has_line
  simp only [Bool.or_eq_true, List.any_eq_true, List.all_eq_true, List.mem_finRange,
    decide_eq_true_eq, true_and, true_implies]
  constructor
  · rintro (((⟨c, hc⟩ | ⟨r, hr⟩) | hd) | ha)
    · exact Or.inr (Or.inl ⟨c, hc⟩)
    · exact Or.inl ⟨r, hr⟩
    · exact Or.inr (Or.inr (Or.inl hd))
    · exact Or.inr (Or.inr (Or.inr ha))
  · rintro (⟨r, hr⟩ | ⟨c, hc⟩ | hd | ha)
    · exact Or.inl (Or.inl (Or.inr ⟨r, hr⟩))
    · exact Or.inl (Or.inl (Or.inl ⟨c, hc⟩))
    · exact Or.inl (Or.inr hd)
    · exact Or.inr ha

theorem moves_nil_iff_open_zero (b : TicTacToeBoard) :
    b.moves = [] ↔ open_positions b = 0 := by
  rw [open_positions_eq_moves_length]
  exact (List.length_eq_zero).symm

theorem apply_ops_history_len : ∀ (ops : List BoardOp) (b b' : TicTacToeBoard),
    apply_ops b ops = some b' →
    (b'.past_moves.length : Int) = b.past_moves.length + countDo ops - countUndo ops := by
  intro ops
  induction ops with
  | nil =>
    intro b b' h
    injection h with h2
    subst h2
    simp [countDo, countUndo]
  | cons op rest ih =>
    intro b b' h
    cases op with
    | doM m =>
      have hr := ih (b.do_move m) b' h
      have hlen : (b.do_move m).past_moves.length = b.past_moves.length + 1 := by
        simp [TicTacToeBoard.do_move]
      rw [hlen] at hr
      have hcd : countDo (BoardOp.doM m :: rest) = countDo rest + 1 := by
        simp [countDo, List.countP_cons]
      have hcu : countUndo (BoardOp.doM m :: rest) = countUndo rest := by
        simp [countUndo, List.countP_cons]
      rw [hcd, hcu]
      push_cast
      push_cast at hr
      omega
    | undoM =>
      simp only [apply_ops] at h
      cases hu : b.undo_move with
      | none => rw [hu] at h; cases h
      | some b2 =>
        rw [hu] at h
        have hlen : b.past_moves.length = b2.past_moves.length + 1 := by
          unfold TicTacToeBoard.undo_move at hu
          cases hpm : b.past_moves with
          | nil => rw [hpm] at hu; cases hu
          | cons a rest2 =>
            rw [hpm] at hu
            injection hu with hu2
            rw [← hu2]
            simp
        have hr := ih b2 b' h
        have hcd : countDo (BoardOp.undoM :: rest) = countDo rest := by
          simp [countDo, List.countP_cons]
        have hcu : countUndo (BoardOp.undoM :: rest) = countUndo rest + 1 := by
          simp [countUndo, List.countP_cons]
        rw [hcd, hcu, hlen]
        push_cast
        push_cast at hr
        omega

theorem id_go_append (timeout : Nat → Bool) (b : TicTacToeBoard) :
    ∀ (l l2 : List Nat) (score : Option XInt) (move : Option Move) (tt : TTTable),
      (∀ d ∈ l, timeout d = false) →
      id_go timeout b (l ++ l2) score move tt =
        id_go timeout b l2 (id_go timeout b l score move tt).1
          (id_go timeout b l score move tt).2.1 (id_go timeout b l score move tt).2.2 := by
  intro l
  induction l with
  | nil => intro l2 s mv tt _; rfl
  | cons d rest ih =>
    intro l2 s mv tt h
    have hd : timeout d = false := h d (List.mem_cons_self _ _)
    simp only [List.cons_append, id_go, hd, Bool.false_eq_true, if_false]
    exact ih l2 _ _ _ (fun d2 hd2 => h d2 (List.mem_cons_of_mem _ hd2))

theorem range_split : ∀ (n k : Nat), k < n → ∃ tail : List Nat,
    List.range n = List.range k ++ k :: tail := by
  intro n
  induction n with
  | zero => intro k h; exact absurd h (Nat.not_lt_zero k)
  | succ m ih =>
    intro k h
    rcases Nat.lt_succ_iff_lt_or_eq.mp h with h2 | h2
    · obtain ⟨t, ht⟩ := ih k h2
      refine ⟨t ++ [m], ?_⟩
      rw [List.range_succ, ht]
      simp
    · subst h2
      exact ⟨[], by rw [List.range_succ]⟩

/- ------------------------------------------------------------------ -/
/- Claim theorems                                                      -/
/- ------------------------------------------------------------------ -/

/-- C1 (code_bug evidence): alpha-beta/cached `minmax` does not return the
same best score as plain unpruned minimax at the same depth.  On the board
`x x .` / `o o .` / `. . .` with `"x"` to move, at depth 1 with a fresh
table, `minmax` returns score 0 while plain minimax returns 1000: because
`reverse=(board.turn == "white")` is never true, the moves are sorted
ascending even for the maximizer, and the depth-1 shortcut then reuses the
first — worst — candidate's heuristic as the final score. -/
theorem minmax_depth1_differs_from_spec_minimax :
    (minmax 1 bX XInt.ninf XInt.pinf []).score = XInt.mk 0
    ∧ specMinimax 1 bX = XInt.mk 1000 := by
  exact ⟨by decide, by decide⟩

/-- C2: `do_move` followed immediately by `undo_move` restores the board —
grid, turn and history — exactly, for every move in `moves()` and in fact
for every board; and over any successful sequence of `do_move`/`undo_move`
calls from a fresh board, the history length always equals the number of
applied, not-yet-undone moves. -/
theorem do_undo_roundtrip :
    (∀ (b : TicTacToeBoard) (m : Move), m ∈ b.moves → (b.do_move m).undo_move = some b)
    ∧ (∀ (t : Player) (ops : List BoardOp) (b' : TicTacToeBoard),
        apply_ops (TicTacToeBoard.init t) ops = some b' →
        (b'.past_moves.length : Int) = countDo ops - countUndo ops) := by
  constructor
  · intro b m hm
    exact do_undo (mem_moves_board_none hm)
  · intro t ops b' h
    have h2 := apply_ops_history_len ops (TicTacToeBoard.init t) b' h
    simpa [TicTacToeBoard.init] using h2

/-- Witness for C2 at concrete inputs: undoing `(1,1)` on the fresh board
restores it, and two `do_move`s leave a history of length 2 = 2 - 0. -/
theorem do_undo_roundtrip_witness :
    ((TicTacToeBoard.init Player.x).do_move (1, 1)).undo_move =
      some (TicTacToeBoard.init Player.x)
    ∧ ((((TicTacToeBoard.init Player.x).do_move (0, 0)).do_move (1, 1)).past_moves.length : Int) =
        countDo [BoardOp.doM (0, 0), BoardOp.doM (1, 1)]
        - countUndo [BoardOp.doM (0, 0), BoardOp.doM (1, 1)] := by
  constructor
  · exact do_undo_roundtrip.1 _ _ (by decide)
  · exact do_undo_roundtrip.2 Player.x [BoardOp.doM (0, 0), BoardOp.doM (1, 1)] _ rfl

/-- C3 (code_bug evidence): at `max_depth = 1` on the non-terminal board
`x x .` / `o o .` / `. . .` with the maximizer `"x"` to move, `minmax`
returns the candidate `(1,2)` with heuristic score 0, even though the
candidate `(0,2)` has the one-ply maximum 1000: the sort is ascending for
both sides because `reverse=(board.turn == "white")` never holds for the
turns `"x"`/`"o"` (the source marks this with `TODO: fix white / x`). -/
theorem minmax_depth1_maximizer_gets_min :
    bX.turn = Player.x
    ∧ (eval_tictactoe bX).2 = false
    ∧ ((0, 2) : Move) ∈ bX.moves
    ∧ score_move_heuristic bX (0, 2) = 1000
    ∧ (minmax 1 bX XInt.ninf XInt.pinf []).score = XInt.mk 0
    ∧ (minmax 1 bX XInt.ninf XInt.pinf []).move = some ((1, 2) : Move) := by
  refine ⟨by decide, by decide, by decide, by decide, by decide, by decide⟩

/-- C4 counterexample: `do_move` with a move not in `moves()` (square
`(0,0)` of `bOcc` is occupied) does not fail — it silently modifies the
board, overwriting the square with the side to move. -/
theorem do_move_occupied_no_failure :
    (((0, 0) : Move) ∉ bOcc.moves)
    ∧ bOcc.do_move (0, 0) ≠ bOcc
    ∧ (bOcc.do_move (0, 0)).board (0, 0) = some Player.o := by
  refine ⟨by decide, by decide, by decide⟩

/-- C4 amended: `undo_move` on an empty history fails (raises, modelled as
`none`) without altering any state, as the claim says; but `do_move` does
not validate its move at all — it writes the mover's mark onto the target
square unconditionally, silently overwriting an occupied square, and
leaves every other square unchanged. -/
theorem undo_empty_fails_do_move_unchecked :
    (∀ b : TicTacToeBoard, b.past_moves = [] → b.undo_move = none)
    ∧ (∀ (b : TicTacToeBoard) (m : Move), (b.do_move m).board m = some b.turn)
    ∧ (∀ (b : TicTacToeBoard) (m p : Move), p ≠ m → (b.do_move m).board p = b.board p) := by
  refine ⟨?_, ?_, ?_⟩
  · intro b h
    unfold TicTacToeBoard.undo_move
    rw [h]
  · intro b m
    simp [TicTacToeBoard.do_move, setCell]
  · intro b m p h
    simp [TicTacToeBoard.do_move, setCell, h]

/-- Witness for the amended C4 at concrete inputs. -/
theorem undo_empty_fails_do_move_unchecked_witness :
    (TicTacToeBoard.init Player.x).undo_move = none
    ∧ (bOcc.do_move (0, 0)).board (0, 0) = some bOcc.turn
    ∧ (bOcc.do_move (0, 0)).board (1, 1) = bOcc.board (1, 1) := by
  refine ⟨undo_empty_fails_do_move_unchecked.1 _ rfl,
    undo_empty_fails_do_move_unchecked.2.1 bOcc (0, 0),
    undo_empty_fails_do_move_unchecked.2.2 bOcc (0, 0) (1, 1) (by decide)⟩

/-- C5: the transposition key is exactly the serialized grid paired with
the remaining depth — it depends on nothing else, so two boards with the
same grid but different `turn` (or different histories) get the same key,
and a table entry cached under one is found under the other. -/
theorem tt_key_ignores_turn :
    (∀ (b1 b2 : TicTacToeBoard) (d : Nat), b1.board = b2.board → ttkey b1 d = ttkey b2 d)
    ∧ (∀ (tt : TTTable) (b1 b2 : TicTacToeBoard) (d : Nat) (s : XInt),
        b1.board = b2.board → tt_lookup tt (ttkey b1 d) = some s →
        tt_lookup tt (ttkey b2 d) = some s) := by
  have hk : ∀ (b1 b2 : TicTacToeBoard) (d : Nat), b1.board = b2.board →
      ttkey b1 d = ttkey b2 d := by
    intro b1 b2 d h
    unfold ttkey serialize_board
    rw [h]
  exact ⟨hk, fun tt b1 b2 d s h hl => by rw [← hk b1 b2 d h]; exact hl⟩

/-- Witness for C5: the fresh `"x"`-to-move and `"o"`-to-move boards share
their (empty) grid, so they key identically at depth 2 and a score cached
for the former is returned for the latter. -/
theorem tt_key_ignores_turn_witness :
    ttkey (TicTacToeBoard.init Player.x) 2 = ttkey (TicTacToeBoard.init Player.o) 2
    ∧ tt_lookup [(ttkey (TicTacToeBoard.init Player.x) 2, XInt.mk 7)]
        (ttkey (TicTacToeBoard.init Player.o) 2) = some (XInt.mk 7) := by
  constructor
  · exact tt_key_ignores_turn.1 _ _ 2 rfl
  · exact tt_key_ignores_turn.2 _ _ _ 2 _ rfl (by decide)

/-- C6: `minmax` returns an absent move together with the evaluator's
score exactly when the evaluator reports the position terminal or
`max_depth = 0`; at any non-terminal position searched with depth at least
1 (with a cache whose entries are all finite scores, as `minmax` itself
maintains), the returned move is present. -/
theorem minmax_absent_move_iff_terminal :
    ∀ (d : Nat) (b : TicTacToeBoard) (alpha beta : XInt) (tt : TTTable), TTGood tt →
    (((eval_tictactoe b).2 = true ∨ d = 0) →
      minmax d b alpha beta tt = ⟨XInt.mk (eval_tictactoe b).1, none, tt, b⟩)
    ∧ ((eval_tictactoe b).2 = false → d ≠ 0 → (minmax d b alpha beta tt).move ≠ none) := by
  intro d b alpha beta tt htt
  constructor
  · intro h
    cases d with
    | zero => rfl
    | succ n =>
      have hdone : (eval_tictactoe b).2 = true := by
        rcases h with h | h
        · exact h
        · exact absurd h (Nat.succ_ne_zero n)
      simp [minmax, hdone]
  · exact fun h1 h2 => (minmax_good d b alpha beta tt htt).2.2 h1 h2

/-- Witness for C6: at depth 0 the fresh board gets score 0 and no move;
at depth 1 it gets a move. -/
theorem minmax_absent_move_iff_terminal_witness :
    minmax 0 (TicTacToeBoard.init Player.x) XInt.ninf XInt.pinf [] =
      ⟨XInt.mk (eval_tictactoe (TicTacToeBoard.init Player.x)).1, none, [],
        TicTacToeBoard.init Player.x⟩
    ∧ (minmax 1 (TicTacToeBoard.init Player.x) XInt.ninf XInt.pinf []).move ≠ none := by
  constructor
  · exact (minmax_absent_move_iff_terminal 0 _ XInt.ninf XInt.pinf [] TTGood_nil).1 (Or.inr rfl)
  · exact (minmax_absent_move_iff_terminal 1 _ XInt.ninf XInt.pinf [] TTGood_nil).2
      (by decide) (by decide)

/-- C7 counterexample: on `bBoth` (rows `x x x` and `o o o` both complete)
`"o"` has a win, yet the score is +1000, not -1000, because `"x"` is
checked first. -/
theorem eval_win_by_o_positive_score :
    has_line bBoth Player.o
    ∧ eval_tictactoe bBoth = (1000, true)
    ∧ (eval_tictactoe bBoth).1 ≠ -1000 := by
  refine ⟨by decide, by decide, by decide⟩

/-- C7 amended: `game_over` is true exactly when some side has a completed
row, column or diagonal or no move is available; a win by `"x"` scores
+1000; a win by `"o"` scores -1000 provided `"x"` has not also completed a
line (with both lines present, `"x"` wins the check order); with no line
the score is 0 and the game is over exactly when the board is full.  (The
evaluator is a pure function of the board by construction.) -/
theorem eval_tictactoe_characterization : ∀ b : TicTacToeBoard,
    ((eval_tictactoe b).2 = true ↔ (has_line b Player.x ∨ has_line b Player.o ∨ b.moves = []))
    ∧ (has_line b Player.x → eval_tictactoe b = (1000, true))
    ∧ (has_line b Player.o → ¬ has_line b Player.x → eval_tictactoe b = (-1000, true))
    ∧ (¬ has_line b Player.x → ¬ has_line b Player.o →
        ((eval_tictactoe b).1 = 0 ∧ ((eval_tictactoe b).2 = true ↔ b.moves = []))) := by
  intro b
  by_cases hx : wins b Player.x = true
  · have hlx : has_line b Player.x := (wins_iff_has_line b Player.x).mp hx
    refine ⟨?_, ?_, ?_, ?_⟩
    · simp only [eval_tictactoe, hx, if_true]
      simp [hlx]
    · intro _
      simp only [eval_tictactoe, hx, if_true]
      rfl
    · intro _ hnx
      exact absurd hlx hnx
    · intro hnx _
      exact absurd hlx hnx
  · have hlx : ¬ has_line b Player.x := fun hl => hx ((wins_iff_has_line b Player.x).mpr hl)
    by_cases ho : wins b Player.o = true
    · have hlo : has_line b Player.o := (wins_iff_has_line b Player.o).mp ho
      refine ⟨?_, ?_, ?_, ?_⟩
      · simp only [eval_tictactoe, hx, ho, if_true, if_false]
        simp [hlo]
      · intro hlx2
        exact absurd hlx2 hlx
      · intro _ _
        simp only [eval_tictactoe, hx, ho, if_true, if_false]
        rfl
      · intro _ hno
        exact absurd hlo hno
    · have hlo : ¬ has_line b Player.o := fun hl => ho ((wins_iff_has_line b Player.o).mpr hl)
      have hiff : (eval_tictactoe b).2 = true ↔ b.moves = [] := by
        simp only [eval_tictactoe, hx, ho, if_false]
        rw [moves_nil_iff_open_zero]
        simp
      refine ⟨?_, ?_, ?_, ?_⟩
      · rw [hiff]
        constructor
        · exact fun h => Or.inr (Or.inr h)
        · rintro (h | h | h)
          · exact absurd h hlx
          · exact absurd h hlo
          · exact h
      · intro hlx2
        exact absurd hlx2 hlx
      · intro hlo2 _
        exact absurd hlo2 hlo
      · intro _ _
        refine ⟨?_, hiff⟩
        simp [eval_tictactoe, hx, ho]

/-- C8: every `minmax` call returns with the board in exactly the state it
was called with — grid, turn and history stack — whatever the depth, the
alpha/beta window and the table: every `do_move` it performs is undone on
every exit path, including alpha-beta cutoffs and the depth-1 shortcut. -/
theorem minmax_restores_board : ∀ (d : Nat) (b : TicTacToeBoard) (alpha beta : XInt)
    (tt : TTTable), (minmax d b alpha beta tt).bd = b :=
  minmax_bd

/-- C9: `iterative_deepening` runs `minmax` at depths `0..max_depth` in
increasing order keeping the most recently completed depth's result: if the
budget is never exceeded, the result is exactly the `(score, move)` (and
table) of the final depth-`max_depth` `minmax` call, made on the cache
state accumulated by the earlier depths; if the budget is first exceeded
at iteration `k = k2 + 1`, the result is that of running depths `0..k2`
only; and if it is exceeded before depth 0 runs, the result is
`(None, None)` with the table untouched. -/
theorem iterative_deepening_spec :
    ∀ (timeout : Nat → Bool) (b : TicTacToeBoard) (D : Nat) (tt : TTTable),
    ((∀ d, d ≤ D → timeout d = false) →
      iterative_deepening timeout b D tt =
        (some (minmax D b XInt.ninf XInt.pinf (id_table_before timeout b D tt)).score,
         (minmax D b XInt.ninf XInt.pinf (id_table_before timeout b D tt)).move,
         (minmax D b XInt.ninf XInt.pinf (id_table_before timeout b D tt)).table))
    ∧ (∀ k, k ≤ D → timeout k = true → (∀ d, d < k → timeout d = false) →
        (k = 0 → iterative_deepening timeout b D tt = (none, none, tt))
        ∧ (∀ k2, k = k2 + 1 →
            iterative_deepening timeout b D tt = iterative_deepening timeout b k2 tt)) := by
  intro timeout b D tt
  constructor
  · intro hno
    cases D with
    | zero =>
      have h0 : timeout 0 = false := hno 0 (le_refl 0)
      have h1 : List.range 1 = [0] := rfl
      simp [iterative_deepening, id_go, h1, h0, id_table_before]
    | succ D2 =>
      have hsp : List.range (D2 + 2) = List.range (D2 + 1) ++ [D2 + 1] := List.range_succ (D2 + 1)
      have happ := id_go_append timeout b (List.range (D2 + 1)) [D2 + 1] none none tt
        (fun d hd => hno d (by have := List.mem_range.mp hd; omega))
      have hD : timeout (D2 + 1) = false := hno _ (le_refl _)
      unfold iterative_deepening
      rw [hsp, happ]
      simp only [id_go, hD, Bool.false_eq_true, if_false]
      rfl
  · intro k hk htk hprev
    constructor
    · intro h0
      subst h0
      obtain ⟨tail, htail⟩ := range_split (D + 1) 0 (Nat.succ_pos D)
      unfold iterative_deepening
      rw [htail]
      simp [id_go, htk]
    · intro k2 hk2
      subst hk2
      obtain ⟨tail, htail⟩ := range_split (D + 1) (k2 + 1) (by omega)
      unfold iterative_deepening
      rw [htail]
      rw [id_go_append timeout b (List.range (k2 + 1)) ((k2 + 1) :: tail) none none tt
        (fun d hd => hprev d (List.mem_range.mp hd))]
      simp only [id_go, htk, if_true]

/-- Witness for C9: without timeouts a depth-1 run equals the final
depth-1 `minmax` call; with the budget exceeded from iteration 1 on, a
depth-3 run equals the depth-0 run; with the budget exceeded immediately,
the result is `(None, None)`. -/
theorem iterative_deepening_spec_witness :
    iterative_deepening tmoNever (TicTacToeBoard.init Player.x) 1 [] =
      (some (minmax 1 (TicTacToeBoard.init Player.x) XInt.ninf XInt.pinf
          (id_table_before tmoNever (TicTacToeBoard.init Player.x) 1 [])).score,
       (minmax 1 (TicTacToeBoard.init Player.x) XInt.ninf XInt.pinf
          (id_table_before tmoNever (TicTacToeBoard.init Player.x) 1 [])).move,
       (minmax 1 (TicTacToeBoard.init Player.x) XInt.ninf XInt.pinf
          (id_table_before tmoNever (TicTacToeBoard.init Player.x) 1 [])).table)
    ∧ iterative_deepening tmoAt1 (TicTacToeBoard.init Player.x) 3 [] =
        iterative_deepening tmoAt1 (TicTacToeBoard.init Player.x) 0 []
    ∧ iterative_deepening tmoAt0 (TicTacToeBoard.init Player.x) 2 [] = (none, none, []) := by
  refine ⟨?_, ?_, ?_⟩
  · exact (iterative_deepening_spec tmoNever _ 1 []).1 (fun d _ => rfl)
  · exact ((iterative_deepening_spec tmoAt1 _ 3 []).2 1 (by decide) (by decide)
      (fun d hd => by
        have hd0 : d = 0 := Nat.lt_one_iff.mp hd
        subst hd0
        rfl)).2 0 rfl
  · exact ((iterative_deepening_spec tmoAt0 _ 2 []).2 0 (by decide) (by decide)
      (fun d hd => absurd hd (Nat.not_lt_zero d))).1 rfl

/-- C10: on every board on which both `"x"` and `"o"` have completed
lines, `eval_tictactoe` returns `(+1000, True)` — `"x"`'s win takes
priority because `"x"` is checked before `"o"`; and such states are indeed
reachable through the public interface, since `do_move` does not validate:
the position `x x x` / `o o o` / `. . .` is reached by six `do_move`
calls alone (play simply continues past `"x"`'s win). -/
theorem eval_both_lines_x_priority :
    (∀ b : TicTacToeBoard, has_line b Player.x → has_line b Player.o →
      eval_tictactoe b = (1000, true))
    ∧ apply_ops (TicTacToeBoard.init Player.x)
        [BoardOp.doM (0, 0), BoardOp.doM (1, 0), BoardOp.doM (0, 1), BoardOp.doM (1, 1),
         BoardOp.doM (0, 2), BoardOp.doM (1, 2)] = some bBoth
    ∧ has_line bBoth Player.x
    ∧ has_line bBoth Player.o := by
  refine ⟨?_, rfl, by decide, by decide⟩
  intro b h1 _
  have hx : wins b Player.x = true := (wins_iff_has_line b Player.x).mpr h1
  simp only [eval_tictactoe, hx, if_true]
  rfl

/-- Witness for C10: the universal both-lines conjunct applied at the
concrete reachable board `bBoth`. -/
theorem eval_both_lines_x_priority_witness :
    eval_tictactoe bBoth = (1000, true) :=
  eval_both_lines_x_priority.1 bBoth (by decide) (by decide)

/-- Witness for the amended C7 at concrete boards: an `"x"` win, an `"o"`
win without an `"x"` line, and a line-free position. -/
theorem eval_tictactoe_characterization_witness :
    eval_tictactoe bBoth = (1000, true)
    ∧ eval_tictactoe bO = (-1000, true)
    ∧ ((eval_tictactoe bX).1 = 0 ∧ ((eval_tictactoe bX).2 = true ↔ bX.moves = [])) := by
  refine ⟨(eval_tictactoe_characterization bBoth).2.1 (by decide),
    (eval_tictactoe_characterization bO).2.2.1 (by decide) (by decide),
    (eval_tictactoe_characterization bX).2.2.2 (by decide) (by decide)⟩
